import Mathlib

/-!
Formal model of the genesis proxy tooling (tanssi-tools).

The definitions below are shallow embeddings of the TypeScript sources
`scripts/genesisProxyModification.ts` and `scripts/genesisProxyRegistration.ts`:
CSV rows become structures of strings, the JavaScript `Number(...)` coercion is
modelled as an exact-rational parser of the decimal fragment of the ECMAScript
string-numeric grammar, maps keyed by genesis account become association lists
in insertion order (the iteration order of a JavaScript `Map`/`Set`), and the
extrinsic-building calls become a small inductive `Call` type carrying the
argument strings verbatim.
-/

/-- Result of the JavaScript `Number(...)` coercion: either NaN, a signed
infinity, or a finite value modelled as an exact rational. -/
inductive JSNumber where
  | nan : JSNumber
  | posInf : JSNumber
  | negInf : JSNumber
  | finite (q : ℚ) : JSNumber
deriving DecidableEq

/-- Decimal digits to a natural number, most significant first. -/
def digitsToNat (ds : List Char) : ℕ :=
  ds.foldl (fun a c => 10 * a + (c.toNat - '0'.toNat)) 0

/-- Character class removed by JavaScript string trimming. -/
def jsWhitespace (c : Char) : Bool := c.isWhitespace

/-- JavaScript `String.prototype.trim`, modelled on the character list. -/
def trimChars (cs : List Char) : List Char :=
  ((cs.dropWhile jsWhitespace).reverse.dropWhile jsWhitespace).reverse

/-- JavaScript `String.prototype.trim` on strings. -/
def jsTrim (s : String) : String := String.mk (trimChars s.data)

/-- Exponent part of a decimal literal: optional sign followed by at least one
digit. -/
def jsExponent (cs : List Char) : Option ℤ :=
  let (neg, r) : Bool × List Char :=
    match cs with
    | '+' :: r => (false, r)
    | '-' :: r => (true, r)
    | r => (false, r)
  if r.isEmpty then none
  else if r.all Char.isDigit then
    some ((if neg then -1 else 1) * (digitsToNat r : ℤ))
  else none

/-- Value `m * 10 ^ e` as an exact rational, built with `mkRat` only. -/
def scaledValue (m : ℕ) (e : ℤ) : ℚ :=
  if 0 ≤ e then mkRat (m * 10 ^ e.toNat) 1 else mkRat m (10 ^ (-e).toNat)

/-- Unsigned decimal literal `digits [. digits] [(e|E) [sign] digits]`, with at
least one digit in the integer or fractional part and nothing left over.
Returns `none` where JavaScript would produce NaN. -/
def jsDecimal (cs : List Char) : Option ℚ :=
  let ip := cs.takeWhile Char.isDigit
  let r1 := cs.dropWhile Char.isDigit
  let (fp, r2) : List Char × List Char :=
    match r1 with
    | '.' :: r => (r.takeWhile Char.isDigit, r.dropWhile Char.isDigit)
    | _ => ([], r1)
  if ip.isEmpty && fp.isEmpty then none
  else
    let m := digitsToNat (ip ++ fp)
    match r2 with
    | [] => some (scaledValue m (-(fp.length : ℤ)))
    | c :: r3 =>
      if c = 'e' ∨ c = 'E' then
        match jsExponent r3 with
        | some e => some (scaledValue m (e - (fp.length : ℤ)))
        | none => none
      else none

/-- Signed numeric literal after trimming: optional sign, then `Infinity` or a
decimal literal. -/
def jsSigned (cs : List Char) : JSNumber :=
  let (neg, r) : Bool × List Char :=
    match cs with
    | '+' :: r => (false, r)
    | '-' :: r => (true, r)
    | r => (false, r)
  if r = "Infinity".data then (if neg then .negInf else .posInf)
  else
    match jsDecimal r with
    | some q => .finite (if neg then -q else q)
    | none => .nan

/-- JavaScript `Number(string)`: trims, maps the empty string to `0`, and
parses the decimal and `Infinity` forms of the ECMAScript string-numeric
grammar (the hexadecimal, octal and binary literal forms are not modelled). -/
def jsNumber (s : String) : JSNumber :=
  let cs := trimChars s.data
  if cs.isEmpty then .finite 0 else jsSigned cs

/-- Fuel-bounded search for the least `k`, starting at the given one, such
that `10 ^ k` is divisible by `d`. -/
def pow10ExponentAux : ℕ → ℕ → ℕ → ℕ
  | 0, _, k => k
  | fuel + 1, d, k => if d ∣ 10 ^ k then k else pow10ExponentAux fuel d (k + 1)

/-- Least `k` such that `10 ^ k` is divisible by `d`, searched up to `d`. -/
def pow10Exponent (d : ℕ) : ℕ := pow10ExponentAux d d 0

/-- Splits `m` as `(s, t)` with `m = s * 10 ^ t` and `s` not divisible by ten
(for `m > 0` and enough fuel): the significand digits and the count of
trailing zeros. -/
def stripZeros : ℕ → ℕ → ℕ × ℕ
  | 0, m => (m, 0)
  | fuel + 1, m =>
    if m % 10 = 0 ∧ m ≠ 0 then
      let p := stripZeros fuel (m / 10)
      (p.1, p.2 + 1)
    else (m, 0)

/-- Significand rendering of the ECMAScript exponential form: a single digit
stands alone, more digits get a point after the first. -/
def mantissaString (sd : String) : String :=
  if sd.length = 1 then sd
  else String.mk (sd.data.take 1) ++ "." ++ String.mk (sd.data.drop 1)

/-- Exponent rendering of the ECMAScript exponential form: `e` followed by an
explicit sign and the decimal exponent. -/
def expSuffix (e : ℤ) : String :=
  (if e < 0 then "e-" else "e+") ++ toString e.natAbs

/-- JavaScript `String(number)` following the ECMAScript `Number::toString`
algorithm at radix 10: `NaN` and infinities print their names; integers of
magnitude below `10 ^ 21` print in canonical decimal form (so `Number("007")`
prints as `"7"`); integers at or above `10 ^ 21` print in exponential
notation (so `Number("1e21")` prints as `"1e+21"`); terminating fractions
print with a decimal point when the point falls inside the digits, as `0.`
with up to five padding zeros just below one, and in exponential notation
outside those ranges. -/
def jsNumToString : JSNumber → String
  | .nan => "NaN"
  | .posInf => "Infinity"
  | .negInf => "-Infinity"
  | .finite q =>
    if q = 0 then "0"
    else
      let sign := if q.num < 0 then "-" else ""
      if q.den = 1 then
        if q.num.natAbs < 10 ^ 21 then sign ++ toString q.num.natAbs
        else
          let p := stripZeros q.num.natAbs q.num.natAbs
          let sd := toString p.1
          sign ++ mantissaString sd ++ expSuffix ((sd.length : ℤ) + p.2 - 1)
      else
        let j := pow10Exponent q.den
        let scaled := q.num.natAbs * (10 ^ j / q.den)
        let p := stripZeros scaled scaled
        let sd := toString p.1
        let n : ℤ := (sd.length : ℤ) + p.2 - j
        if 0 < n ∧ n ≤ 21 then
          sign ++ String.mk (sd.data.take n.toNat) ++ "." ++
            String.mk (sd.data.drop n.toNat)
        else if -6 < n ∧ n ≤ 0 then
          sign ++ "0." ++ String.mk (List.replicate (-n).toNat '0') ++ sd
        else sign ++ mantissaString sd ++ expSuffix (n - 1)

/-- Expected CSV header sequence shared by the proxy tools. -/
def EXPECTED_HEADERS : List String :=
  ["Genesis Account", "Proxy Account", "Proxy Type", "Delay"]

/-- Loop body of the header check: compares the remaining expected names
positionally against the remaining actual names, returning the 1-based index
of the first mismatch (an absent column compares as a mismatch, columns beyond
the expected ones are never examined). -/
def checkHeadersGo : List String → List String → ℕ → Option ℕ
  | [], _, _ => none
  | e :: es, hs, i =>
    if hs.head? = some e then checkHeadersGo es hs.tail (i + 1) else some (i + 1)

/-- Header check of `validateCSVStructure` (both proxy tools): `none` means the
headers are accepted, `some j` means a mismatch at 1-based column `j`. -/
def checkHeaders (headers : List String) : Option ℕ :=
  checkHeadersGo EXPECTED_HEADERS headers 0

/-- Delay check of `genesisProxyModification.ts` (line 176): the field must
coerce to a finite, non-negative integer. -/
def validDelayModification (delay : String) : Bool :=
  match jsNumber delay with
  | .finite q => decide (0 ≤ q.num) && decide (q.den = 1)
  | _ => false

/-- Delay check of `genesisProxyRegistration.ts` (line 106) and of the proxy
registration variant: the field must merely not coerce to NaN. -/
def validDelayRegistration (delay : String) : Bool :=
  match jsNumber delay with
  | .nan => false
  | _ => true

instance {ε α : Type _} [DecidableEq ε] [DecidableEq α] :
    DecidableEq (Except ε α) := fun x y =>
  match x, y with
  | .ok a, .ok b =>
    if h : a = b then .isTrue (by rw [h])
    else .isFalse (fun hh => by cases hh; exact h rfl)
  | .error a, .error b =>
    if h : a = b then .isTrue (by rw [h])
    else .isFalse (fun hh => by cases hh; exact h rfl)
  | .ok _, .error _ => .isFalse (fun hh => by cases hh)
  | .error _, .ok _ => .isFalse (fun hh => by cases hh)

/-- Known proxy type values of `genesisProxyModification.ts` (the closed
capability vocabulary). -/
def KNOWN_PROXY_TYPES : List String :=
  ["Any", "NonTransfer", "Governance", "Staking", "IdentityJudgement",
   "CancelProxy", "Auction", "Society", "NominationPools", "FastGovernance",
   "EthereumBridge", "Assets"]

/-- Synonym table of `normalizeProxyType`. -/
def proxyTypeSynonyms : List (String × String) :=
  [("any", "Any"), ("staking", "Staking"), ("governance", "Governance"),
   ("nontransfer", "NonTransfer"), ("non-transfer", "NonTransfer"),
   ("identityjudgement", "IdentityJudgement"),
   ("identity-judgement", "IdentityJudgement"),
   ("cancelproxy", "CancelProxy"), ("pools", "NominationPools"),
   ("nominationpools", "NominationPools")]

/-- Lookup key used by `normalizeProxyType`: the trimmed input with whitespace,
underscores and hyphens removed, lower-cased. -/
def proxyTypeKey (t : String) : String :=
  String.mk ((t.data.filter
    (fun c => !(c.isWhitespace || c = '_' || c = '-'))).map Char.toLower)

/-- Fallback of `normalizeProxyType`: capitalize the first character of the
trimmed input and keep the rest unchanged. -/
def capHeuristic (t : String) : String :=
  match t.data with
  | [] => ""
  | c :: cs => String.mk (c.toUpper :: cs)

/-- The `normalizeProxyType` function of `genesisProxyModification.ts`: trim,
consult the synonym table on the separator-stripped lower-cased key, otherwise
fall back to single capitalization, and accept only members of
`KNOWN_PROXY_TYPES`; the error carries the raw input. -/
def normalizeProxyType (raw : String) : Except String String :=
  let t := jsTrim raw
  let key := proxyTypeKey t
  let mapped := (List.lookup key proxyTypeSynonyms).getD (capHeuristic t)
  if mapped ∈ KNOWN_PROXY_TYPES then .ok mapped else .error raw

/-- A parsed CSV row of the proxy tools (all fields as read, untrimmed beyond
what the CSV parser already did). -/
structure ProxyRow where
  genesisAccount : String
  proxyAccount : String
  proxyType : String
  delay : String
deriving DecidableEq

/-- The per-genesis value stored by `toPerGenesisMap`: delegate, normalized
capability, canonical delay string. -/
structure ProxyEntry where
  proxy : String
  type : String
  delay : String
deriving DecidableEq

/-- A genesis-keyed configuration, as an association list in insertion order
(the iteration order of a JavaScript `Map`). -/
abbrev PerGenesisConfig := List (String × ProxyEntry)

/-- First-match lookup in a configuration, the JavaScript `Map.get`. -/
def lookupConfig : PerGenesisConfig → String → Option ProxyEntry
  | [], _ => none
  | (k, v) :: rest, g => if k = g then some v else lookupConfig rest g

/-- Key list of a configuration, in insertion order. -/
def keysOf (m : PerGenesisConfig) : List String := m.map Prod.fst

/-- Errors that `toPerGenesisMap` can raise. -/
inductive GenMapError where
  | duplicateGenesis (genesis : String)
  | unknownProxyType (raw : String)
deriving DecidableEq

/-- Loop of `toPerGenesisMap`: for each row, trim the genesis account, fail on
a key already present, normalize the proxy type, and store the trimmed proxy
account and the canonical delay string `String(Number(delay))`. -/
def toPerGenesisMapAux :
    List ProxyRow → PerGenesisConfig → Except GenMapError PerGenesisConfig
  | [], acc => .ok acc
  | r :: rs, acc =>
    if (lookupConfig acc (jsTrim r.genesisAccount)).isSome then
      .error (.duplicateGenesis (jsTrim r.genesisAccount))
    else
      match normalizeProxyType r.proxyType with
      | .error raw => .error (.unknownProxyType raw)
      | .ok ty =>
        toPerGenesisMapAux rs
          (acc ++ [(jsTrim r.genesisAccount,
            ⟨jsTrim r.proxyAccount, ty, jsNumToString (jsNumber r.delay)⟩)])

/-- Boolean success test on `Except`. -/
def isOkE {ε α : Type _} : Except ε α → Bool
  | .ok _ => true
  | .error _ => false

/-- The `toPerGenesisMap` function of `genesisProxyModification.ts`. -/
def toPerGenesisMap (rows : List ProxyRow) : Except GenMapError PerGenesisConfig :=
  toPerGenesisMapAux rows []

/-- Extrinsic calls built by the tools, carrying the argument strings
verbatim (address decoding and `BigInt` conversion are out-of-scope
boundary steps). -/
inductive Call where
  | removeProxy (delegate : String) (proxyType : String) (delay : String)
  | addProxy (delegate : String) (proxyType : String) (delay : String)
  | batchAll (calls : List Call)
  | dispatchAs (genesis : String) (call : Call)
  | sudo (call : Call)

/-- First-occurrence deduplication with an accumulator of already-seen keys:
the iteration order of a JavaScript `Set` built from a list. -/
def firstOccurrences : List String → List String → List String
  | [], _ => []
  | a :: l, seen =>
    if a ∈ seen then firstOccurrences l seen
    else a :: firstOccurrences l (a :: seen)

/-- Union of genesis keys as iterated by `buildCalls`: the NEW keys in
insertion order, then the OLD-only keys in insertion order. -/
def unionKeys (newKeys oldKeys : List String) : List String :=
  firstOccurrences (newKeys ++ oldKeys) []

/-- Per-genesis body of the `buildCalls` loop: skip when OLD and NEW agree on
all three fields, otherwise emit the removal of the OLD row and/or the
addition of the NEW row, batched only when both are present, and dispatched
under the genesis account's authority. -/
def perGenesisCall (newCfg oldCfg : PerGenesisConfig) (genesis : String) :
    Option Call :=
  match lookupConfig oldCfg genesis, lookupConfig newCfg genesis with
  | some o, some n =>
    if o = n then none
    else some (.dispatchAs genesis (.batchAll
      [.removeProxy o.proxy o.type o.delay, .addProxy n.proxy n.type n.delay]))
  | some o, none => some (.dispatchAs genesis (.removeProxy o.proxy o.type o.delay))
  | none, some n => some (.dispatchAs genesis (.addProxy n.proxy n.type n.delay))
  | none, none => none

/-- The `buildCalls` function of `genesisProxyModification.ts`. -/
def buildCalls (newCfg oldCfg : PerGenesisConfig) : List Call :=
  (unionKeys (keysOf newCfg) (keysOf oldCfg)).filterMap
    (perGenesisCall newCfg oldCfg)

/-- Outcome of the planning part of `main` in `genesisProxyModification.ts`. -/
inductive PlanOutcome where
  | nothingToDo
  | submit (batchTx : Call) (finalTx : Call)

/-- Lines 304-322 of `genesisProxyModification.ts`: when `buildCalls` is empty
report "nothing to do", otherwise build the outer batch and the final
transaction. The `sudoRequested` flag exists on the CLI but, exactly as in the
source, is not consulted here: line 316 wraps the batch in `sudo.sudo`
unconditionally. -/
def mainPlan (sudoRequested : Bool) (newCfg oldCfg : PerGenesisConfig) :
    PlanOutcome :=
  let calls := buildCalls newCfg oldCfg
  if calls.isEmpty then .nothingToDo
  else .submit (.batchAll calls) (.sudo (.batchAll calls))

/-- The primitive delegation operations encoded in a plan. -/
inductive DelegationOp where
  | removeDelegation (owner : String) (entry : ProxyEntry)
  | addDelegation (owner : String) (entry : ProxyEntry)
deriving DecidableEq

/-- Owner under whose authority an operation executes. -/
def opOwner : DelegationOp → String
  | .removeDelegation g _ => g
  | .addDelegation g _ => g

/-- Primitive operations of a leaf call, attributed to the given owner. -/
def primitiveOps (genesis : String) : Call → List DelegationOp
  | .removeProxy p t d => [.removeDelegation genesis ⟨p, t, d⟩]
  | .addProxy p t d => [.addDelegation genesis ⟨p, t, d⟩]
  | _ => []

/-- Flattening of one owner-scoped unit produced by `buildCalls` into its
primitive operations. -/
def callOps : Call → List DelegationOp
  | .dispatchAs g (.batchAll cs) => cs.flatMap (primitiveOps g)
  | .dispatchAs g c => primitiveOps g c
  | _ => []

/-- The ordered operation sequence of a plan. -/
def planOps (calls : List Call) : List DelegationOp := calls.flatMap callOps

/-- Owner of an owner-scoped unit. -/
def callOwner : Call → Option String
  | .dispatchAs g _ => some g
  | _ => none

/-- Modelled from the spec: conceptual application of one operation to a
configuration mapping — "remove deletes the owner's old triple, add installs
the new triple". The source never applies operations (it only builds
extrinsics); this definition exists solely to state the convergence law. -/
def applyOp (m : PerGenesisConfig) : DelegationOp → PerGenesisConfig
  | .removeDelegation g e =>
    m.filter (fun p => !(decide (p.1 = g) && decide (p.2 = e)))
  | .addDelegation g e => m.filter (fun p => !(decide (p.1 = g))) ++ [(g, e)]

/-- Modelled from the spec: left-to-right application of an operation
sequence. -/
def applyOps (m : PerGenesisConfig) (ops : List DelegationOp) : PerGenesisConfig :=
  ops.foldl applyOp m

/-- Per-owner operation list of the diff, used to reason about `buildCalls`. -/
def perOwnerOps (newCfg oldCfg : PerGenesisConfig) (g : String) :
    List DelegationOp :=
  match lookupConfig oldCfg g, lookupConfig newCfg g with
  | some o, some n =>
    if o = n then [] else [.removeDelegation g o, .addDelegation g n]
  | some o, none => [.removeDelegation g o]
  | none, some n => [.addDelegation g n]
  | none, none => []

example : normalizeProxyType "non-transfer" = .ok "NonTransfer" := by decide
example : normalizeProxyType "NonTransfer" = .ok "NonTransfer" := by decide
example : normalizeProxyType "not-a-real-type" = .error "not-a-real-type" := by
  decide
example : normalizeProxyType "auction" = .ok "Auction" := by decide
example : toPerGenesisMap [⟨" g1 ", " p1 ", "any", "007"⟩] =
    .ok [("g1", ⟨"p1", "Any", "7"⟩)] := by decide
example : toPerGenesisMap [⟨"g1", "p1", "any", "0"⟩, ⟨"g1", "p2", "staking", "1"⟩] =
    .error (.duplicateGenesis "g1") := by decide
example : unionKeys ["a", "b"] ["b", "c"] = ["a", "b", "c"] := by decide

lemma head?_eq_zero {α : Type _} (l : List α) : l.head? = l[0]? := by
  cases l <;> simp

lemma tail_getElem? {α : Type _} (l : List α) (k : ℕ) : l.tail[k]? = l[k + 1]? := by
  cases l <;> simp

lemma checkHeadersGo_none_iff (es : List String) :
    ∀ (hs : List String) (i : ℕ),
      checkHeadersGo es hs i = none ↔ ∀ k, k < es.length → hs[k]? = es[k]? := by
  induction es with
  | nil => intro hs i; simp [checkHeadersGo]
  | cons e es ih =>
    intro hs i
    unfold checkHeadersGo
    by_cases h : hs.head? = some e
    · rw [if_pos h, ih]
      constructor
      · intro H k hk
        match k with
        | 0 =>
          rw [← head?_eq_zero, h]
          simp
        | k + 1 =>
          have := H k (by simpa using hk)
          rw [tail_getElem?] at this
          simpa using this
      · intro H k hk
        rw [tail_getElem?]
        have := H (k + 1) (by simpa using hk)
        simpa using this
    · rw [if_neg h]
      constructor
      · intro hcon; exact absurd hcon (by simp)
      · intro H
        exfalso
        apply h
        have := H 0 (by simp)
        rw [← head?_eq_zero] at this
        simpa using this

lemma checkHeadersGo_some_iff (es : List String) :
    ∀ (hs : List String) (i j : ℕ),
      checkHeadersGo es hs i = some j ↔
        ∃ k, k < es.length ∧ hs[k]? ≠ es[k]? ∧ j = i + (k + 1) ∧
          ∀ k', k' < k → hs[k']? = es[k']? := by
  induction es with
  | nil => intro hs i j; simp [checkHeadersGo]
  | cons e es ih =>
    intro hs i j
    unfold checkHeadersGo
    by_cases h : hs.head? = some e
    · rw [if_pos h, ih]
      constructor
      · rintro ⟨k, hk, hne, hj, hall⟩
        refine ⟨k + 1, by simpa using hk, ?_, by omega, ?_⟩
        · rw [← tail_getElem?]
          simpa using hne
        · intro k' hk'
          match k' with
          | 0 =>
            rw [← head?_eq_zero, h]
            simp
          | k' + 1 =>
            have := hall k' (by omega)
            rw [tail_getElem?] at this
            simpa using this
      · rintro ⟨k, hk, hne, hj, hall⟩
        match k with
        | 0 =>
          exfalso
          apply hne
          rw [← head?_eq_zero, h]
          simp
        | k + 1 =>
          refine ⟨k, by simpa using hk, ?_, by omega, ?_⟩
          · rw [tail_getElem?]
            simpa using hne
          · intro k' hk'
            rw [tail_getElem?]
            have := hall (k' + 1) (by omega)
            simpa using this
    · rw [if_neg h]
      constructor
      · intro hj
        have hj' : j = i + 1 := by
          have := Option.some.inj hj
          omega
        refine ⟨0, by simp, ?_, by omega, by omega⟩
        rw [← head?_eq_zero]
        simpa using h
      · rintro ⟨k, hk, hne, hj, hall⟩
        match k with
        | 0 => simp [hj]
        | k + 1 =>
          exfalso
          apply h
          have := hall 0 (by omega)
          rw [← head?_eq_zero] at this
          simpa using this

/-- C1: the privileged (sudo) envelope is applied even when the operator does
not request it. With the sudo flag `false` and a non-empty plan, the final
transaction handed off and printed is still `sudo(batchAll ...)`, and a
sudo-wrapped call is never equal to the unwrapped batch. The code at line 316
of `genesisProxyModification.ts` wraps unconditionally, contradicting the
flag's description and the adjacent comment "Wrap the batch inside sudo if
requested". -/
theorem c1_sudo_wrapped_without_request :
    mainPlan false [("g1", ⟨"p1", "Any", "0"⟩)] [] =
      PlanOutcome.submit
        (Call.batchAll [Call.dispatchAs "g1" (Call.addProxy "p1" "Any" "0")])
        (Call.sudo
          (Call.batchAll [Call.dispatchAs "g1" (Call.addProxy "p1" "Any" "0")])) ∧
    ∀ c : Call, Call.sudo c ≠ c := by
  refine ⟨rfl, ?_⟩
  intro c h
  have hs := congrArg sizeOf h
  simp at hs

/-- C3 counterexample: a header row whose first four columns are correct but
which carries a fifth, trailing column passes the header check, although it is
not equal to the expected sequence — trailing columns are tolerated, not
rejected. -/
theorem c3_counterexample_trailing_column :
    checkHeaders
        ["Genesis Account", "Proxy Account", "Proxy Type", "Delay", "Extra"] =
      none ∧
    ["Genesis Account", "Proxy Account", "Proxy Type", "Delay", "Extra"] ≠
      EXPECTED_HEADERS := by
  constructor
  · rfl
  · decide

/-- C3 (amended): the header check compares only the first four column names
positionally: it accepts exactly when every position below four matches the
expected name (so reordered or missing columns among the first four are
rejected, while columns beyond the fourth are tolerated), and on rejection it
reports `k + 1` where `k` is the first mismatched zero-based position. -/
theorem c3_header_check_first_four (hs : List String) :
    (checkHeaders hs = none ↔
      ∀ k, k < 4 → hs[k]? = EXPECTED_HEADERS[k]?) ∧
    ∀ j, checkHeaders hs = some j ↔
      ∃ k, k < 4 ∧ hs[k]? ≠ EXPECTED_HEADERS[k]? ∧ j = k + 1 ∧
        ∀ k', k' < k → hs[k']? = EXPECTED_HEADERS[k']? := by
  constructor
  · rw [checkHeaders, checkHeadersGo_none_iff]
    rfl
  · intro j
    rw [checkHeaders, checkHeadersGo_some_iff]
    constructor
    · rintro ⟨k, hk, hne, hj, hall⟩
      exact ⟨k, hk, hne, by omega, hall⟩
    · rintro ⟨k, hk, hne, hj, hall⟩
      exact ⟨k, hk, hne, by omega, hall⟩

/-- C3 witness: a source whose four columns are correct but reordered (Delay
before Proxy Type) fails citing column 3, the first mismatched position. -/
theorem c3_header_check_first_four_witness :
    checkHeaders ["Genesis Account", "Proxy Account", "Delay", "Proxy Type"] =
      some 3 :=
  ((c3_header_check_first_four
    ["Genesis Account", "Proxy Account", "Delay", "Proxy Type"]).2 3).mpr
    ⟨2, by omega, by decide, rfl, by decide⟩

/-- C4 counterexample: the registration tools accept negative and fractional
delay values that the claim says every tool rejects, while the modification
tool rejects them. -/
theorem c4_counterexample_registration_delay :
    validDelayRegistration "-1" = true ∧ validDelayRegistration "1.5" = true ∧
    validDelayModification "-1" = false ∧
    validDelayModification "1.5" = false := by
  refine ⟨rfl, rfl, rfl, rfl⟩

/-- C4 (amended): the modification tool accepts a delay exactly when it
coerces to a finite, non-negative integer (fractional or negative values are
rejected), while the registration tools accept any delay that merely coerces
to a number other than NaN, including fractional and negative values. -/
theorem c4_delay_validation (s : String) :
    (validDelayModification s = true ↔
      ∃ q : ℚ, jsNumber s = .finite q ∧ 0 ≤ q ∧ q.den = 1) ∧
    (validDelayRegistration s = true ↔ jsNumber s ≠ .nan) := by
  constructor
  · unfold validDelayModification
    cases h : jsNumber s with
    | finite q =>
      simp only [Bool.and_eq_true, decide_eq_true_eq]
      constructor
      · rintro ⟨hnum, hden⟩
        exact ⟨q, rfl, by rwa [← Rat.num_nonneg], hden⟩
      · rintro ⟨q', hq', hnonneg, hden⟩
        cases hq'
        exact ⟨Rat.num_nonneg.mpr hnonneg, hden⟩
    | nan => simp
    | posInf => simp
    | negInf => simp
  · unfold validDelayRegistration
    cases h : jsNumber s <;> simp

/-- C4 witness: the delay "7" is accepted by the modification tool and the
delay "1.5" by the registration tools. -/
theorem c4_delay_validation_witness :
    validDelayModification "7" = true ∧ validDelayRegistration "1.5" = true :=
  ⟨((c4_delay_validation "7").1).mpr ⟨7, by decide, by norm_num, by decide⟩,
   ((c4_delay_validation "1.5").2).mpr (by decide)⟩

/-- C8: the synonyms "non-transfer", "NonTransfer" and "nontransfer" all
normalize to the tag `NonTransfer`; an input matching no synonym is accepted
exactly when the single-capitalization heuristic applied to the trimmed
original is itself in the closed vocabulary, and "not-a-real-type" fails with
an unknown-capability error carrying the raw input. -/
theorem c8_capability_normalization :
    normalizeProxyType "non-transfer" = .ok "NonTransfer" ∧
    normalizeProxyType "NonTransfer" = .ok "NonTransfer" ∧
    normalizeProxyType "nontransfer" = .ok "NonTransfer" ∧
    normalizeProxyType "not-a-real-type" = .error "not-a-real-type" ∧
    ∀ raw r, List.lookup (proxyTypeKey (jsTrim raw)) proxyTypeSynonyms = none →
      (normalizeProxyType raw = .ok r ↔
        r = capHeuristic (jsTrim raw) ∧ r ∈ KNOWN_PROXY_TYPES) := by
  refine ⟨rfl, rfl, rfl, rfl, ?_⟩
  intro raw r h
  unfold normalizeProxyType
  simp only [h, Option.getD_none]
  by_cases hm : capHeuristic (jsTrim raw) ∈ KNOWN_PROXY_TYPES
  · rw [if_pos hm]
    constructor
    · intro he
      have := Except.ok.inj he
      exact ⟨this.symm, this ▸ hm⟩
    · rintro ⟨hr, _⟩
      rw [hr]
  · rw [if_neg hm]
    constructor
    · intro he; exact absurd he (by simp)
    · rintro ⟨hr, hmem⟩
      exact absurd (hr ▸ hmem) hm

/-- C8 witness: "auction" matches no synonym and is accepted through the
capitalization heuristic as `Auction`. -/
theorem c8_capability_normalization_witness :
    normalizeProxyType "auction" = .ok "Auction" :=
  ((c8_capability_normalization.2.2.2.2 "auction" "Auction") (by decide)).mpr
    ⟨by decide, by decide⟩

lemma lookupConfig_none_iff (m : PerGenesisConfig) (g : String) :
    lookupConfig m g = none ↔ g ∉ keysOf m := by
  induction m with
  | nil => simp [lookupConfig, keysOf]
  | cons p rest ih =>
    obtain ⟨k, v⟩ := p
    by_cases hk : k = g <;> simp [lookupConfig, keysOf, hk, ih] <;>
      simp [keysOf] at ih ⊢ <;> tauto

lemma mem_keys_of_lookup (m : PerGenesisConfig) (g : String) (e : ProxyEntry)
    (h : lookupConfig m g = some e) : g ∈ keysOf m := by
  by_contra hmem
  rw [← lookupConfig_none_iff] at hmem
  rw [hmem] at h
  cases h

lemma mem_firstOccurrences :
    ∀ (l seen : List String) (a : String),
      a ∈ firstOccurrences l seen ↔ a ∈ l ∧ a ∉ seen := by
  intro l
  induction l with
  | nil => intro seen a; simp [firstOccurrences]
  | cons b l ih =>
    intro seen a
    unfold firstOccurrences
    by_cases hb : b ∈ seen
    · rw [if_pos hb, ih]
      simp only [List.mem_cons]
      constructor
      · rintro ⟨h1, h2⟩; exact ⟨Or.inr h1, h2⟩
      · rintro ⟨rfl | h1, h2⟩
        · exact absurd hb h2
        · exact ⟨h1, h2⟩
    · rw [if_neg hb]
      simp only [List.mem_cons, ih]
      constructor
      · rintro (rfl | ⟨h1, h2⟩)
        · exact ⟨Or.inl rfl, hb⟩
        · exact ⟨Or.inr h1, fun hs => h2 (Or.inr hs)⟩
      · rintro ⟨rfl | h1, h2⟩
        · exact Or.inl rfl
        · by_cases hab : a = b
          · exact Or.inl hab
          · exact Or.inr ⟨h1, fun hs => hs.elim hab h2⟩

lemma nodup_firstOccurrences :
    ∀ (l seen : List String), (firstOccurrences l seen).Nodup := by
  intro l
  induction l with
  | nil => intro seen; simp [firstOccurrences]
  | cons b l ih =>
    intro seen
    unfold firstOccurrences
    by_cases hb : b ∈ seen
    · rw [if_pos hb]; exact ih seen
    · rw [if_neg hb]
      refine List.Nodup.cons ?_ (ih (b :: seen))
      intro hmem
      exact ((mem_firstOccurrences l (b :: seen) b).mp hmem).2 (by simp)

lemma unionKeys_nodup (newKeys oldKeys : List String) :
    (unionKeys newKeys oldKeys).Nodup :=
  nodup_firstOccurrences _ _

lemma mem_unionKeys (newKeys oldKeys : List String) (a : String) :
    a ∈ unionKeys newKeys oldKeys ↔ a ∈ newKeys ∨ a ∈ oldKeys := by
  unfold unionKeys
  rw [mem_firstOccurrences]
  simp

lemma perGenesisCall_owner (newCfg oldCfg : PerGenesisConfig) (g : String)
    (c : Call) (h : perGenesisCall newCfg oldCfg g = some c) :
    callOwner c = some g := by
  unfold perGenesisCall at h
  split at h
  · split at h
    · cases h
    · cases h; rfl
  · cases h; rfl
  · cases h; rfl
  · cases h

lemma perGenesisCall_none_iff (newCfg oldCfg : PerGenesisConfig) (g : String) :
    perGenesisCall newCfg oldCfg g = none ↔
      lookupConfig oldCfg g = lookupConfig newCfg g := by
  unfold perGenesisCall
  cases ho : lookupConfig oldCfg g with
  | none =>
    cases hn : lookupConfig newCfg g with
    | none => simp
    | some n => simp
  | some o =>
    cases hn : lookupConfig newCfg g with
    | none => simp
    | some n =>
      by_cases he : o = n <;> simp [he]

/-- C6: if OLD and NEW agree on every owner, the diff is empty and the main
flow reports the distinct "nothing to do" outcome without building any
submission unit. -/
theorem c6_identical_configs_no_ops (newCfg oldCfg : PerGenesisConfig)
    (h : ∀ g, lookupConfig newCfg g = lookupConfig oldCfg g) :
    buildCalls newCfg oldCfg = [] ∧
    ∀ s : Bool, mainPlan s newCfg oldCfg = PlanOutcome.nothingToDo := by
  have hb : buildCalls newCfg oldCfg = [] := by
    unfold buildCalls
    rw [List.filterMap_eq_nil_iff]
    intro g _
    rw [perGenesisCall_none_iff]
    exact (h g).symm
  refine ⟨hb, fun s => ?_⟩
  simp [mainPlan, hb]

/-- C6 witness: equal one-owner configurations produce no calls and the
"nothing to do" outcome. -/
theorem c6_identical_configs_no_ops_witness :
    buildCalls [("g1", ⟨"p1", "Any", "0"⟩)] [("g1", ⟨"p1", "Any", "0"⟩)] = [] ∧
    mainPlan true [("g1", ⟨"p1", "Any", "0"⟩)] [("g1", ⟨"p1", "Any", "0"⟩)] =
      PlanOutcome.nothingToDo := by
  have h := c6_identical_configs_no_ops [("g1", ⟨"p1", "Any", "0"⟩)]
    [("g1", ⟨"p1", "Any", "0"⟩)] (fun _ => rfl)
  exact ⟨h.1, h.2 true⟩

lemma filterMap_owner_order (newCfg oldCfg : PerGenesisConfig) :
    ∀ ks : List String,
      (ks.filterMap (perGenesisCall newCfg oldCfg)).filterMap callOwner =
        ks.filter
          (fun g => decide (lookupConfig oldCfg g ≠ lookupConfig newCfg g)) := by
  intro ks
  induction ks with
  | nil => rfl
  | cons k ks ih =>
    rw [List.filterMap_cons, List.filter_cons]
    cases hk : perGenesisCall newCfg oldCfg k with
    | none =>
      have heq := (perGenesisCall_none_iff newCfg oldCfg k).mp hk
      rw [ih]
      simp [heq]
    | some c =>
      have ho := perGenesisCall_owner newCfg oldCfg k c hk
      have hne : lookupConfig oldCfg k ≠ lookupConfig newCfg k := by
        intro heq
        rw [(perGenesisCall_none_iff newCfg oldCfg k).mpr heq] at hk
        cases hk
      rw [List.filterMap_cons, ho]
      simp [hne, ih]

/-- C9: the plan's per-owner units appear exactly in the deterministic union
order of owner keys (NEW keys in insertion order, then OLD-only keys)
restricted to the changed owners, and that union order has no duplicates; the
diff is a pure function of the two mappings, so two runs on equal mappings
produce identical ordered sequences. -/
theorem c9_deterministic_plan_order (newCfg oldCfg : PerGenesisConfig) :
    (buildCalls newCfg oldCfg).filterMap callOwner =
      (unionKeys (keysOf newCfg) (keysOf oldCfg)).filter
        (fun g => decide (lookupConfig oldCfg g ≠ lookupConfig newCfg g)) ∧
    (unionKeys (keysOf newCfg) (keysOf oldCfg)).Nodup :=
  ⟨filterMap_owner_order newCfg oldCfg _, unionKeys_nodup _ _⟩

lemma filter_owner_nil (f : String → Option Call)
    (hf : ∀ k c, f k = some c → callOwner c = some k) (g : String) :
    ∀ ks : List String, g ∉ ks →
      (ks.filterMap f).filter (fun c => decide (callOwner c = some g)) = [] := by
  intro ks
  induction ks with
  | nil => intro _; rfl
  | cons k ks ih =>
    intro hg
    rw [List.filterMap_cons]
    cases hk : f k with
    | none => exact ih (fun h => hg (.tail _ h))
    | some c =>
      rw [List.filter_cons]
      have ho := hf k c hk
      have : ¬ (callOwner c = some g) := by
        rw [ho]
        intro h
        exact hg (by simp [Option.some.inj h])
      simp only [this, decide_eq_true_eq, if_neg]
      · exact ih (fun h => hg (.tail _ h))

lemma filter_owner_single (f : String → Option Call)
    (hf : ∀ k c, f k = some c → callOwner c = some k) (g : String) :
    ∀ ks : List String, ks.Nodup → g ∈ ks →
      (ks.filterMap f).filter (fun c => decide (callOwner c = some g)) =
        (f g).toList := by
  intro ks
  induction ks with
  | nil => intro _ h; cases h
  | cons k ks ih =>
    intro hnd hg
    have hknotin : k ∉ ks := (List.nodup_cons.mp hnd).1
    have hndk : ks.Nodup := (List.nodup_cons.mp hnd).2
    rw [List.filterMap_cons]
    rcases List.mem_cons.mp hg with rfl | hgks
    · cases hk : f g with
      | none => rw [filter_owner_nil f hf g ks hknotin]; rfl
      | some c =>
        rw [List.filter_cons]
        have ho := hf g c hk
        rw [filter_owner_nil f hf g ks hknotin]
        simp [ho]
    · have hgk : g ≠ k := fun h => hknotin (h ▸ hgks)
      cases hk : f k with
      | none => exact ih hndk hgks
      | some c =>
        rw [List.filter_cons]
        have ho := hf k c hk
        have : ¬ (callOwner c = some g) := by
          rw [ho]
          intro h
          exact hgk (Option.some.inj h).symm
        simp only [this, decide_eq_true_eq, if_neg]
        · exact ih hndk hgks

/-- C5: for an owner present in both configurations with differing triples,
the plan contains exactly one unit for that owner, and it is the OLD-triple
removal followed by the NEW-triple addition, batched all-or-nothing and
dispatched under that owner's authority. -/
theorem c5_replaced_remove_then_add (newCfg oldCfg : PerGenesisConfig)
    (g : String) (o n : ProxyEntry)
    (ho : lookupConfig oldCfg g = some o) (hn : lookupConfig newCfg g = some n)
    (hne : o ≠ n) :
    (buildCalls newCfg oldCfg).filter
        (fun c => decide (callOwner c = some g)) =
      [Call.dispatchAs g (Call.batchAll
        [Call.removeProxy o.proxy o.type o.delay,
         Call.addProxy n.proxy n.type n.delay])] := by
  have hg : g ∈ unionKeys (keysOf newCfg) (keysOf oldCfg) :=
    (mem_unionKeys _ _ g).mpr (Or.inl (mem_keys_of_lookup _ _ _ hn))
  unfold buildCalls
  rw [filter_owner_single (perGenesisCall newCfg oldCfg)
    (perGenesisCall_owner newCfg oldCfg) g _ (unionKeys_nodup _ _) hg]
  unfold perGenesisCall
  rw [ho, hn]
  simp [hne]

/-- C5 witness: a one-owner pair with changed delegate yields exactly the
remove-then-add batch under that owner. -/
theorem c5_replaced_remove_then_add_witness :
    (buildCalls [("g1", ⟨"p2", "Any", "0"⟩)] [("g1", ⟨"p1", "Any", "0"⟩)]).filter
        (fun c => decide (callOwner c = some "g1")) =
      [Call.dispatchAs "g1" (Call.batchAll
        [Call.removeProxy "p1" "Any" "0", Call.addProxy "p2" "Any" "0"])] :=
  c5_replaced_remove_then_add [("g1", ⟨"p2", "Any", "0"⟩)]
    [("g1", ⟨"p1", "Any", "0"⟩)] "g1" ⟨"p1", "Any", "0"⟩ ⟨"p2", "Any", "0"⟩
    rfl rfl (by decide)

lemma toPerGenesisMapAux_ok_keys :
    ∀ (rows : List ProxyRow) (acc m : PerGenesisConfig),
      toPerGenesisMapAux rows acc = .ok m →
      keysOf m = keysOf acc ++ rows.map (fun r => jsTrim r.genesisAccount) := by
  intro rows
  induction rows with
  | nil =>
    intro acc m h
    simp only [toPerGenesisMapAux] at h
    cases h
    simp
  | cons r rs ih =>
    intro acc m h
    simp only [toPerGenesisMapAux] at h
    split at h
    · cases h
    · split at h
      · cases h
      · rw [ih _ _ h]
        simp [keysOf]

lemma toPerGenesisMapAux_ok_nodup :
    ∀ (rows : List ProxyRow) (acc m : PerGenesisConfig),
      (keysOf acc).Nodup → toPerGenesisMapAux rows acc = .ok m →
      (keysOf acc ++ rows.map (fun r => jsTrim r.genesisAccount)).Nodup := by
  intro rows
  induction rows with
  | nil =>
    intro acc m hacc _
    simpa using hacc
  | cons r rs ih =>
    intro acc m hacc h
    simp only [toPerGenesisMapAux] at h
    split at h
    · cases h
    · rename_i hcond
      have hnotin : jsTrim r.genesisAccount ∉ keysOf acc := by
        rw [← lookupConfig_none_iff]
        exact Option.not_isSome_iff_eq_none.mp hcond
      split at h
      · cases h
      · rename_i ty heq
        have hacc' :
            (keysOf (acc ++ [(jsTrim r.genesisAccount,
              ⟨jsTrim r.proxyAccount, ty, jsNumToString (jsNumber r.delay)⟩)])).Nodup := by
          simp only [keysOf, List.map_append]
          rw [List.nodup_append]
          refine ⟨hacc, by simp, ?_⟩
          intro a ha hmem
          simp only [List.map_cons, List.map_nil, List.mem_singleton] at hmem
          exact hnotin (hmem ▸ ha)
        have := ih _ _ hacc' h
        simp only [keysOf, List.map_append] at this
        simpa [List.append_assoc] using this

lemma toPerGenesisMapAux_dup_error :
    ∀ (rows : List ProxyRow) (acc : PerGenesisConfig),
      (∀ r ∈ rows, isOkE (normalizeProxyType r.proxyType) = true) →
      (∀ m, toPerGenesisMapAux rows acc ≠ .ok m) →
      ∃ g, toPerGenesisMapAux rows acc = .error (.duplicateGenesis g) ∧
        2 ≤ (keysOf acc ++ rows.map (fun r => jsTrim r.genesisAccount)).count g := by
  intro rows
  induction rows with
  | nil =>
    intro acc _ hne
    exact absurd rfl (hne acc)
  | cons r rs ih =>
    intro acc htypes hne
    by_cases hdup : (lookupConfig acc (jsTrim r.genesisAccount)).isSome = true
    · refine ⟨jsTrim r.genesisAccount, ?_, ?_⟩
      · simp only [toPerGenesisMapAux]
        rw [if_pos hdup]
      · obtain ⟨e, he⟩ := Option.isSome_iff_exists.mp hdup
        have hmem := mem_keys_of_lookup _ _ _ he
        have h1 : 0 < (keysOf acc).count (jsTrim r.genesisAccount) :=
          List.count_pos_iff.mpr hmem
        rw [List.count_append, List.map_cons, List.count_cons_self]
        omega
    · cases hok : normalizeProxyType r.proxyType with
      | error e =>
        have := htypes r (by simp)
        rw [hok] at this
        simp [isOkE] at this
      | ok ty =>
        have hstep : toPerGenesisMapAux (r :: rs) acc =
            toPerGenesisMapAux rs (acc ++ [(jsTrim r.genesisAccount,
              ⟨jsTrim r.proxyAccount, ty, jsNumToString (jsNumber r.delay)⟩)]) := by
          simp only [toPerGenesisMapAux]
          rw [if_neg hdup, hok]
        obtain ⟨g, herr, hcount⟩ := ih _
          (fun r' hr' => htypes r' (List.mem_cons_of_mem _ hr'))
          (fun m hm => hne m (by rw [hstep]; exact hm))
        refine ⟨g, by rw [hstep]; exact herr, ?_⟩
        have heq : keysOf (acc ++ [(jsTrim r.genesisAccount,
              ⟨jsTrim r.proxyAccount, ty, jsNumToString (jsNumber r.delay)⟩)]) ++
            rs.map (fun r => jsTrim r.genesisAccount) =
            keysOf acc ++ (r :: rs).map (fun r => jsTrim r.genesisAccount) := by
          simp [keysOf]
        rw [heq] at hcount
        exact hcount

/-- C7: a validated row sequence containing two rows with the same (trimmed)
owner account — identical or different — makes `toPerGenesisMap` fail with a
duplicate-owner error naming a duplicated owner; no mapping is returned, so
there is never a last-write-wins merge. -/
theorem c7_duplicate_owner_rejected (rows : List ProxyRow) (gdup : String)
    (htypes : ∀ r ∈ rows, isOkE (normalizeProxyType r.proxyType) = true)
    (hdup : 2 ≤ (rows.map (fun r => jsTrim r.genesisAccount)).count gdup) :
    ∃ g, toPerGenesisMap rows = .error (.duplicateGenesis g) ∧
      2 ≤ (rows.map (fun r => jsTrim r.genesisAccount)).count g := by
  have hne : ∀ m, toPerGenesisMapAux rows [] ≠ .ok m := by
    intro m hm
    have hnd := toPerGenesisMapAux_ok_nodup rows [] m (by simp [keysOf]) hm
    simp only [keysOf, List.map_nil, List.nil_append] at hnd
    have := List.nodup_iff_count_le_one.mp hnd gdup
    omega
  obtain ⟨g, herr, hcount⟩ := toPerGenesisMapAux_dup_error rows [] htypes hne
  refine ⟨g, herr, ?_⟩
  simpa [keysOf] using hcount

/-- C7 witness: two different rows sharing the owner "g1" (one with
surrounding whitespace) are rejected with a duplicate-owner error naming a
duplicated owner. -/
theorem c7_duplicate_owner_rejected_witness :
    ∃ g, toPerGenesisMap
        [⟨"g1", "p1", "any", "0"⟩, ⟨"g2", "p2", "staking", "1"⟩,
         ⟨" g1", "p3", "governance", "2"⟩] =
        .error (.duplicateGenesis g) ∧
      2 ≤ (([⟨"g1", "p1", "any", "0"⟩, ⟨"g2", "p2", "staking", "1"⟩,
         ⟨" g1", "p3", "governance", "2"⟩] : List ProxyRow).map
          (fun r => jsTrim r.genesisAccount)).count g :=
  c7_duplicate_owner_rejected
    [⟨"g1", "p1", "any", "0"⟩, ⟨"g2", "p2", "staking", "1"⟩,
     ⟨" g1", "p3", "governance", "2"⟩] "g1" (by decide) (by decide)

lemma normalizeProxyType_ok_mem (raw ty : String)
    (h : normalizeProxyType raw = .ok ty) : ty ∈ KNOWN_PROXY_TYPES := by
  simp only [normalizeProxyType] at h
  split at h
  · cases h
    assumption
  · cases h

lemma toPerGenesisMapAux_entries :
    ∀ (rows : List ProxyRow) (acc m : PerGenesisConfig),
      toPerGenesisMapAux rows acc = .ok m →
      ∀ p ∈ m, p ∈ acc ∨ ∃ r ∈ rows,
        p.1 = jsTrim r.genesisAccount ∧ p.2.proxy = jsTrim r.proxyAccount ∧
        p.2.delay = jsNumToString (jsNumber r.delay) ∧
        normalizeProxyType r.proxyType = .ok p.2.type := by
  intro rows
  induction rows with
  | nil =>
    intro acc m h p hp
    simp only [toPerGenesisMapAux] at h
    cases h
    exact Or.inl hp
  | cons r rs ih =>
    intro acc m h p hp
    simp only [toPerGenesisMapAux] at h
    split at h
    · cases h
    · split at h
      · cases h
      · rename_i ty hok
        rcases ih _ _ h p hp with hacc | ⟨r', hr', h1, h2, h3, h4⟩
        · rcases List.mem_append.mp hacc with hmem | hmem
          · exact Or.inl hmem
          · rw [List.mem_singleton] at hmem
            subst hmem
            exact Or.inr ⟨r, by simp, rfl, rfl, rfl, hok⟩
        · exact Or.inr ⟨r', List.mem_cons_of_mem _ hr', h1, h2, h3, h4⟩

lemma jsNumToString_natCast (d : ℕ) (hd : d < 10 ^ 21) :
    jsNumToString (.finite (d : ℚ)) = toString d := by
  by_cases hd0 : d = 0
  · subst hd0
    decide
  · have hne : ((d : ℚ)) ≠ 0 := Nat.cast_ne_zero.mpr hd0
    have hden : ((d : ℚ)).den = 1 := Rat.den_natCast d
    have hnum : ((d : ℚ)).num = (d : ℤ) := Rat.num_natCast d
    have hneg : ¬ ((d : ℤ) < 0) := by omega
    simp only [jsNumToString]
    rw [if_neg hne, hden, hnum, Int.natAbs_ofNat, if_pos rfl, if_pos hd,
      if_neg hneg]
    rfl

/-- C10 counterexample: the delay "1e21" passes the modification tool's
validation and `toPerGenesisMap` succeeds, but the stored delay is the
exponential rendering "1e+21" of `String(Number("1e21"))`, not the canonical
decimal string of its numeric value `10 ^ 21`. -/
theorem c10_counterexample_exponential_delay :
    validDelayModification "1e21" = true ∧
    toPerGenesisMap [⟨"g1", "p1", "any", "1e21"⟩] =
      .ok [("g1", ⟨"p1", "Any", "1e+21"⟩)] ∧
    jsNumber "1e21" = .finite ((10 ^ 21 : ℕ) : ℚ) ∧
    "1e+21" ≠ toString (10 ^ 21 : ℕ) := by
  exact ⟨by decide, by decide, by decide, by decide⟩

/-- C10 (amended): a mapping successfully produced by `toPerGenesisMap` from
rows whose delays pass the modification tool's validation keys each owner
exactly once (no duplicate keys), stores only capability tags from the closed
vocabulary, stores owner and delegate as the trimmed source fields, and
stores the delay as the JavaScript string rendering of its numeric value:
the canonical decimal string whenever the value is below `10 ^ 21` (so "007"
is stored as "7"), and exponential notation at or above `10 ^ 21`. -/
theorem c10_mapping_normalization_invariant (rows : List ProxyRow)
    (m : PerGenesisConfig)
    (hdelay : ∀ r ∈ rows, validDelayModification r.delay = true)
    (hok : toPerGenesisMap rows = .ok m) :
    (keysOf m).Nodup ∧
    ∀ p ∈ m, p.2.type ∈ KNOWN_PROXY_TYPES ∧
      ∃ r ∈ rows, p.1 = jsTrim r.genesisAccount ∧
        p.2.proxy = jsTrim r.proxyAccount ∧
        ∃ d : ℕ, jsNumber r.delay = .finite (d : ℚ) ∧
          p.2.delay = jsNumToString (.finite (d : ℚ)) ∧
          (d < 10 ^ 21 → p.2.delay = toString d) := by
  constructor
  · rw [toPerGenesisMapAux_ok_keys rows [] m hok]
    have := toPerGenesisMapAux_ok_nodup rows [] m (by simp [keysOf]) hok
    simpa [keysOf] using this
  · intro p hp
    rcases toPerGenesisMapAux_entries rows [] m hok p hp with
      hnil | ⟨r, hr, h1, h2, h3, h4⟩
    · cases hnil
    refine ⟨normalizeProxyType_ok_mem _ _ h4, r, hr, h1, h2, ?_⟩
    have hv := hdelay r hr
    unfold validDelayModification at hv
    cases hj : jsNumber r.delay with
    | finite q =>
      rw [hj] at hv h3
      simp only [Bool.and_eq_true, decide_eq_true_eq] at hv
      obtain ⟨hnum, hden⟩ := hv
      have hq : (q.num : ℚ) = q := Rat.coe_int_num_of_den_eq_one hden
      have h5 : ((q.num.toNat : ℕ) : ℚ) = (q.num : ℚ) := by
        exact_mod_cast Int.toNat_of_nonneg hnum
      have hqd : ((q.num.toNat : ℕ) : ℚ) = q := by rw [h5, hq]
      refine ⟨q.num.toNat, ?_, ?_, ?_⟩
      · rw [hqd]
      · rw [h3, hqd]
      · intro hlt
        rw [h3]
        conv_lhs => rw [← hqd]
        exact jsNumToString_natCast _ hlt
    | nan => rw [hj] at hv; cases hv
    | posInf => rw [hj] at hv; cases hv
    | negInf => rw [hj] at hv; cases hv

/-- C10 witness: a single validated row with padded fields and delay "007"
yields the amended invariant concretely — key "g1", trimmed delegate, known
type, canonical delay "7". -/
theorem c10_mapping_normalization_invariant_witness :
    (keysOf [("g1", (⟨"p1", "Any", "7"⟩ : ProxyEntry))]).Nodup ∧
    ∀ p ∈ ([("g1", (⟨"p1", "Any", "7"⟩ : ProxyEntry))] : PerGenesisConfig),
      p.2.type ∈ KNOWN_PROXY_TYPES ∧
      ∃ r ∈ ([⟨" g1 ", " p1 ", "any", "007"⟩] : List ProxyRow),
        p.1 = jsTrim r.genesisAccount ∧
        p.2.proxy = jsTrim r.proxyAccount ∧
        ∃ d : ℕ, jsNumber r.delay = .finite (d : ℚ) ∧
          p.2.delay = jsNumToString (.finite (d : ℚ)) ∧
          (d < 10 ^ 21 → p.2.delay = toString d) :=
  c10_mapping_normalization_invariant [⟨" g1 ", " p1 ", "any", "007"⟩]
    [("g1", ⟨"p1", "Any", "7"⟩)] (by decide) (by decide)

lemma lookupConfig_filter_frame (φ : String × ProxyEntry → Bool) (g : String)
    (hφ : ∀ v, φ (g, v) = true) :
    ∀ m : PerGenesisConfig, lookupConfig (m.filter φ) g = lookupConfig m g := by
  intro m
  induction m with
  | nil => rfl
  | cons p rest ih =>
    obtain ⟨k, v⟩ := p
    rw [List.filter_cons]
    by_cases hk : k = g
    · subst hk
      rw [if_pos (hφ v)]
      simp [lookupConfig]
    · cases hpred : φ (k, v) <;> simp [lookupConfig, hk, ih]

lemma lookupConfig_filter_key_none (g : String) :
    ∀ m : PerGenesisConfig,
      lookupConfig (m.filter (fun p => !(decide (p.1 = g)))) g = none := by
  intro m
  induction m with
  | nil => rfl
  | cons p rest ih =>
    obtain ⟨k, v⟩ := p
    rw [List.filter_cons]
    by_cases hk : k = g
    · rw [if_neg (by simp [hk])]
      exact ih
    · rw [if_pos (by simp [hk])]
      simp [lookupConfig, hk, ih]

lemma lookupConfig_append (l₁ l₂ : PerGenesisConfig) (g : String) :
    lookupConfig (l₁ ++ l₂) g =
      match lookupConfig l₁ g with
      | some v => some v
      | none => lookupConfig l₂ g := by
  induction l₁ with
  | nil => rfl
  | cons p rest ih =>
    obtain ⟨k, v⟩ := p
    by_cases hk : k = g <;> simp [lookupConfig, hk, ih]

lemma lookupConfig_filter_none (g : String) (φ : String × ProxyEntry → Bool) :
    ∀ m : PerGenesisConfig, lookupConfig m g = none →
      lookupConfig (m.filter φ) g = none := by
  intro m
  induction m with
  | nil => intro _; rfl
  | cons p rest ih =>
    obtain ⟨k, v⟩ := p
    intro h
    have hk : ¬ k = g := by
      intro hk
      rw [lookupConfig, if_pos hk] at h
      cases h
    rw [lookupConfig, if_neg hk] at h
    rw [List.filter_cons]
    cases hpred : φ (k, v) <;> simp [lookupConfig, hk, ih h]

lemma lookup_applyOp_frame (m : PerGenesisConfig) (op : DelegationOp)
    (g : String) (h : opOwner op ≠ g) :
    lookupConfig (applyOp m op) g = lookupConfig m g := by
  cases op with
  | removeDelegation g' e =>
    have hne : g ≠ g' := fun he => h (he ▸ rfl)
    exact lookupConfig_filter_frame _ g (fun v => by simp [hne]) m
  | addDelegation g' e =>
    have hne : g ≠ g' := fun he => h (he ▸ rfl)
    rw [applyOp, lookupConfig_append]
    rw [lookupConfig_filter_frame _ g (fun v => by simp [hne]) m]
    cases hl : lookupConfig m g with
    | some v => rfl
    | none => simp [lookupConfig, Ne.symm hne]

lemma lookup_applyOp_add (m : PerGenesisConfig) (g : String) (e : ProxyEntry) :
    lookupConfig (applyOp m (.addDelegation g e)) g = some e := by
  rw [applyOp, lookupConfig_append, lookupConfig_filter_key_none]
  simp [lookupConfig]

lemma lookup_applyOp_remove (m : PerGenesisConfig) (g : String) (e : ProxyEntry)
    (hnd : (keysOf m).Nodup) (h : lookupConfig m g = some e) :
    lookupConfig (applyOp m (.removeDelegation g e)) g = none := by
  induction m with
  | nil => cases h
  | cons p rest ih =>
    obtain ⟨k, v⟩ := p
    have hndk : (keysOf rest).Nodup := (List.nodup_cons.mp hnd).2
    by_cases hk : k = g
    · subst hk
      rw [lookupConfig, if_pos rfl] at h
      have hv : v = e := Option.some.inj h
      subst hv
      rw [applyOp, List.filter_cons, if_neg (by simp)]
      have hrest : lookupConfig rest k = none := by
        rw [lookupConfig_none_iff]
        exact (List.nodup_cons.mp hnd).1
      exact lookupConfig_filter_none k _ rest hrest
    · rw [lookupConfig, if_neg hk] at h
      rw [applyOp, List.filter_cons]
      cases hpred : (fun p : String × ProxyEntry =>
          !(decide (p.1 = g) && decide (p.2 = e))) (k, v)
      · rw [if_neg (by simp_all)]
        exact ih hndk h
      · rw [if_pos hpred]
        rw [lookupConfig, if_neg hk]
        exact ih hndk h

lemma keys_filter_sub (m : PerGenesisConfig) (φ : String × ProxyEntry → Bool) :
    (keysOf (m.filter φ)).Sublist (keysOf m) :=
  (List.filter_sublist m).map Prod.fst

lemma keys_applyOp_nodup (m : PerGenesisConfig) (op : DelegationOp)
    (h : (keysOf m).Nodup) : (keysOf (applyOp m op)).Nodup := by
  cases op with
  | removeDelegation g e => exact h.sublist (keys_filter_sub m _)
  | addDelegation g e =>
    rw [applyOp]
    simp only [keysOf, List.map_append]
    rw [List.nodup_append]
    refine ⟨h.sublist (keys_filter_sub m _), by simp, ?_⟩
    intro a ha hmem
    simp only [List.map_cons, List.map_nil, List.mem_singleton] at hmem
    subst hmem
    obtain ⟨p, hp, hpa⟩ := List.mem_map.mp ha
    have := (List.mem_filter.mp hp).2
    rw [hpa] at this
    simp at this

lemma lookup_applyOps_frame (ops : List DelegationOp) :
    ∀ (m : PerGenesisConfig) (g : String), (∀ op ∈ ops, opOwner op ≠ g) →
      lookupConfig (applyOps m ops) g = lookupConfig m g := by
  induction ops with
  | nil => intro m g _; rfl
  | cons op ops ih =>
    intro m g h
    rw [applyOps, List.foldl_cons]
    rw [show List.foldl applyOp (applyOp m op) ops =
      applyOps (applyOp m op) ops from rfl]
    rw [ih _ g (fun op' hop' => h op' (List.mem_cons_of_mem _ hop'))]
    exact lookup_applyOp_frame m op g (h op (by simp))

lemma keys_applyOps_nodup (ops : List DelegationOp) :
    ∀ m : PerGenesisConfig, (keysOf m).Nodup →
      (keysOf (applyOps m ops)).Nodup := by
  induction ops with
  | nil => intro m h; exact h
  | cons op ops ih =>
    intro m h
    rw [applyOps, List.foldl_cons]
    exact ih _ (keys_applyOp_nodup m op h)

lemma perOwnerOps_owner (newCfg oldCfg : PerGenesisConfig) (g : String)
    (op : DelegationOp) (h : op ∈ perOwnerOps newCfg oldCfg g) :
    opOwner op = g := by
  unfold perOwnerOps at h
  split at h
  · split at h
    · cases h
    · rcases List.mem_cons.mp h with rfl | h'
      · rfl
      · rcases List.mem_cons.mp h' with rfl | h''
        · rfl
        · cases h''
  · rcases List.mem_cons.mp h with rfl | h'
    · rfl
    · cases h'
  · rcases List.mem_cons.mp h with rfl | h'
    · rfl
    · cases h'
  · cases h

lemma lookup_applyOps_perOwner (newCfg oldCfg m : PerGenesisConfig)
    (g : String) (hnd : (keysOf m).Nodup)
    (hm : lookupConfig m g = lookupConfig oldCfg g) :
    lookupConfig (applyOps m (perOwnerOps newCfg oldCfg g)) g =
      lookupConfig newCfg g := by
  cases ho : lookupConfig oldCfg g with
  | none =>
    cases hn : lookupConfig newCfg g with
    | none =>
      have hops : perOwnerOps newCfg oldCfg g = [] := by
        simp [perOwnerOps, ho, hn]
      rw [hops, applyOps, List.foldl_nil, hm, ho]
    | some n =>
      have hops : perOwnerOps newCfg oldCfg g = [.addDelegation g n] := by
        simp [perOwnerOps, ho, hn]
      rw [hops, applyOps, List.foldl_cons, List.foldl_nil]
      exact lookup_applyOp_add m g n
  | some o =>
    cases hn : lookupConfig newCfg g with
    | none =>
      have hops : perOwnerOps newCfg oldCfg g = [.removeDelegation g o] := by
        simp [perOwnerOps, ho, hn]
      rw [hops, applyOps, List.foldl_cons, List.foldl_nil]
      exact lookup_applyOp_remove m g o hnd (by rw [hm, ho])
    | some n =>
      by_cases he : o = n
      · have hops : perOwnerOps newCfg oldCfg g = [] := by
          simp [perOwnerOps, ho, hn, he]
        rw [hops, applyOps, List.foldl_nil, hm, ho, he]
      · have hops : perOwnerOps newCfg oldCfg g =
            [.removeDelegation g o, .addDelegation g n] := by
          simp [perOwnerOps, ho, hn, he]
        rw [hops, applyOps, List.foldl_cons, List.foldl_cons, List.foldl_nil]
        exact lookup_applyOp_add _ g n

lemma applyOps_flatMap (newCfg oldCfg : PerGenesisConfig) :
    ∀ (ks : List String) (m : PerGenesisConfig), ks.Nodup → (keysOf m).Nodup →
      (∀ k ∈ ks, lookupConfig m k = lookupConfig oldCfg k) →
      ∀ g, lookupConfig
          (applyOps m (ks.flatMap (perOwnerOps newCfg oldCfg))) g =
        if g ∈ ks then lookupConfig newCfg g else lookupConfig m g := by
  intro ks
  induction ks with
  | nil =>
    intro m _ _ _ g
    simp [applyOps]
  | cons k ks ih =>
    intro m hnd hmnd hold g
    have hk : k ∉ ks := (List.nodup_cons.mp hnd).1
    have hndk : ks.Nodup := (List.nodup_cons.mp hnd).2
    rw [List.flatMap_cons, applyOps, List.foldl_append]
    rw [show List.foldl applyOp
        (List.foldl applyOp m (perOwnerOps newCfg oldCfg k))
        (ks.flatMap (perOwnerOps newCfg oldCfg)) =
      applyOps (applyOps m (perOwnerOps newCfg oldCfg k))
        (ks.flatMap (perOwnerOps newCfg oldCfg)) from rfl]
    have hm'nd : (keysOf (applyOps m (perOwnerOps newCfg oldCfg k))).Nodup :=
      keys_applyOps_nodup _ m hmnd
    have hold' : ∀ k' ∈ ks,
        lookupConfig (applyOps m (perOwnerOps newCfg oldCfg k)) k' =
          lookupConfig oldCfg k' := by
      intro k' hk'
      have hne : ∀ op ∈ perOwnerOps newCfg oldCfg k, opOwner op ≠ k' := by
        intro op hop
        rw [perOwnerOps_owner newCfg oldCfg k op hop]
        intro he
        exact hk (he ▸ hk')
      rw [lookup_applyOps_frame _ _ _ hne]
      exact hold k' (List.mem_cons_of_mem _ hk')
    rw [ih _ hndk hm'nd hold' g]
    by_cases hgks : g ∈ ks
    · rw [if_pos hgks, if_pos (List.mem_cons_of_mem _ hgks)]
    · rw [if_neg hgks]
      by_cases hgk : g = k
      · subst hgk
        rw [if_pos (by simp)]
        exact lookup_applyOps_perOwner newCfg oldCfg m g hmnd (hold g (by simp))
      · rw [if_neg (by simp [hgk, hgks])]
        have hne : ∀ op ∈ perOwnerOps newCfg oldCfg k, opOwner op ≠ g := by
          intro op hop
          rw [perOwnerOps_owner newCfg oldCfg k op hop]
          exact fun he => hgk he.symm
        exact lookup_applyOps_frame _ _ _ hne

lemma callOps_perGenesisCall (newCfg oldCfg : PerGenesisConfig) (g : String) :
    (match perGenesisCall newCfg oldCfg g with
     | some c => callOps c
     | none => []) = perOwnerOps newCfg oldCfg g := by
  cases ho : lookupConfig oldCfg g with
  | none =>
    cases hn : lookupConfig newCfg g with
    | none => simp [perGenesisCall, perOwnerOps, ho, hn]
    | some n => simp [perGenesisCall, perOwnerOps, ho, hn, callOps, primitiveOps]
  | some o =>
    cases hn : lookupConfig newCfg g with
    | none => simp [perGenesisCall, perOwnerOps, ho, hn, callOps, primitiveOps]
    | some n =>
      by_cases he : o = n <;>
        simp [perGenesisCall, perOwnerOps, ho, hn, he, callOps, primitiveOps]

lemma planOps_buildCalls (newCfg oldCfg : PerGenesisConfig) :
    planOps (buildCalls newCfg oldCfg) =
      (unionKeys (keysOf newCfg) (keysOf oldCfg)).flatMap
        (perOwnerOps newCfg oldCfg) := by
  unfold planOps buildCalls
  generalize unionKeys (keysOf newCfg) (keysOf oldCfg) = ks
  induction ks with
  | nil => rfl
  | cons k ks ih =>
    rw [List.flatMap_cons, List.filterMap_cons]
    have hcall := callOps_perGenesisCall newCfg oldCfg k
    cases hk : perGenesisCall newCfg oldCfg k with
    | none =>
      rw [hk] at hcall
      simp only at hcall
      rw [ih, ← hcall]
      simp
    | some c =>
      rw [hk] at hcall
      simp only at hcall
      rw [List.flatMap_cons, ih, hcall]

/-- C2: convergence law — applying the operation sequence of the plan built by
`buildCalls` to the OLD configuration (remove deletes the owner's old triple,
add installs the new one) yields a configuration that agrees with NEW on every
owner. -/
theorem c2_convergence_law (newCfg oldCfg : PerGenesisConfig)
    (holdnd : (keysOf oldCfg).Nodup) :
    ∀ g, lookupConfig
        (applyOps oldCfg (planOps (buildCalls newCfg oldCfg))) g =
      lookupConfig newCfg g := by
  intro g
  rw [planOps_buildCalls]
  rw [applyOps_flatMap newCfg oldCfg (unionKeys (keysOf newCfg) (keysOf oldCfg))
    oldCfg (unionKeys_nodup _ _) holdnd (fun _ _ => rfl) g]
  by_cases hg : g ∈ unionKeys (keysOf newCfg) (keysOf oldCfg)
  · rw [if_pos hg]
  · rw [if_neg hg]
    have h1 : lookupConfig newCfg g = none := by
      rw [lookupConfig_none_iff]
      intro hmem
      exact hg ((mem_unionKeys _ _ g).mpr (Or.inl hmem))
    have h2 : lookupConfig oldCfg g = none := by
      rw [lookupConfig_none_iff]
      intro hmem
      exact hg ((mem_unionKeys _ _ g).mpr (Or.inr hmem))
    rw [h1, h2]

/-- C2 witness: a two-owner OLD and a NEW that replaces one owner, drops one
and adds one converge at the added owner "c". -/
theorem c2_convergence_law_witness :
    lookupConfig
        (applyOps [("a", ⟨"p1", "Any", "0"⟩), ("b", ⟨"p2", "Staking", "1"⟩)]
          (planOps (buildCalls
            [("a", ⟨"p3", "Any", "0"⟩), ("c", ⟨"p4", "Governance", "2"⟩)]
            [("a", ⟨"p1", "Any", "0"⟩), ("b", ⟨"p2", "Staking", "1"⟩)]))) "c" =
      lookupConfig
        [("a", ⟨"p3", "Any", "0"⟩), ("c", ⟨"p4", "Governance", "2"⟩)] "c" :=
  c2_convergence_law
    [("a", ⟨"p3", "Any", "0"⟩), ("c", ⟨"p4", "Governance", "2"⟩)]
    [("a", ⟨"p1", "Any", "0"⟩), ("b", ⟨"p2", "Staking", "1"⟩)] (by decide) "c"

example : jsNumber "007" = .finite 7 := by decide
example : jsNumber "-1" = .finite (-1) := by decide
example : jsNumber "1.5" = .finite (mkRat 3 2) := by decide
example : jsNumber "abc" = .nan := by decide
example : jsNumber "" = .finite 0 := by decide
example : jsNumber " 12 " = .finite 12 := by decide
example : jsNumber "1e3" = .finite 1000 := by decide
example : validDelayModification "-1" = false := by decide
example : validDelayModification "1.5" = false := by decide
example : validDelayModification "7" = true := by decide
example : validDelayRegistration "-1" = true := by decide
example : validDelayRegistration "1.5" = true := by decide
example : validDelayRegistration "abc" = false := by decide
example : jsNumToString (jsNumber "007") = "7" := by decide
example : jsNumToString (jsNumber "1.5") = "1.5" := by decide
example : jsNumToString (jsNumber "-1.5") = "-1.5" := by decide
example : jsNumToString (jsNumber "1e21") = "1e+21" := by decide
example : jsNumToString (jsNumber "15e21") = "1.5e+22" := by decide
example : jsNumToString (jsNumber "1e20") = "100000000000000000000" := by decide
example : jsNumToString (jsNumber "0.000001") = "0.000001" := by decide
example : jsNumToString (jsNumber "0.0000001") = "1e-7" := by decide
example : checkHeaders EXPECTED_HEADERS = none := by decide
example : checkHeaders ["Genesis Account", "Proxy Account", "Delay", "Proxy Type"] = some 3 := by
  decide
